import Mathlib

/-!
# Column imputer: a shallow embedding

This file embeds the missing-value imputer implemented (twice, once per design
pattern) in `imputer_factory.py` and `imputer_strategy.py`.  The two copies of
the numeric code are line-for-line identical, so one embedding covers both.

Modelling choices:
* a numeric cell of the 2-D float array is `Option ℚ`: `none` is the NaN
  missing marker, `some q` a (finite) numeric value;
* a matrix is its list of rows; numpy arrays are rectangular, which theorems
  assume through the `Rect` predicate where row lengths matter;
* Python exceptions surface as `Except PyErr`, Python `None` results as
  `Option.none` in the success channel.
-/

namespace Impute

/-- A cell of the float matrix: `none` is the NaN missing marker. -/
abbrev Cell : Type := Option ℚ

/-- A 2-D array, as its list of rows. -/
abbrev Mat : Type := List (List Cell)

/-- A fitted statistic vector (`fitted_data`), one cell per column. -/
abbrev Stats : Type := List Cell

/-- Python exceptions that the embedded code can raise. -/
inductive PyErr : Type
  | attributeError
  | typeError
  | valueError
  | indexError
  | runtimeError
deriving DecidableEq

/-- `data.shape[1]`: the column count, read off the first row (0 if no rows). -/
def ncols (m : Mat) : ℕ :=
  match m with
  | [] => 0
  | r :: _ => r.length

/-- Rectangularity: every row has the column count.  numpy 2-D arrays satisfy
this by construction. -/
def Rect (m : Mat) : Prop := ∀ r ∈ m, r.length = ncols m

/-- Column `j` of the matrix, `data[:, j]`. -/
def getCol (m : Mat) (j : ℕ) : List Cell := m.map (fun r => r.getD j none)

/-- The non-missing entries of a column, in order (NaN cells dropped). -/
def presentVals (col : List Cell) : List ℚ := col.filterMap id

/-- `np.nanmean` of one column: the arithmetic mean of the non-missing entries;
NaN (`none`) when every entry is missing. -/
def nanmeanCol (col : List Cell) : Cell :=
  let p := presentVals col
  if p = [] then none else some (p.sum / p.length)

/-- `np.nanmean(data, axis=0)`: one column mean per column. -/
def nanmean (m : Mat) : Stats :=
  (List.range (ncols m)).map (fun j => nanmeanCol (getCol m j))

/-- `np.nanmedian` of one column: sort the non-missing entries ascending; take
the middle element for an odd count, the average of the two middle elements for
an even count; NaN (`none`) when every entry is missing. -/
def nanmedianCol (col : List Cell) : Cell :=
  let p := List.insertionSort (fun a b : ℚ => a ≤ b) (presentVals col)
  if p.length = 0 then none
  else if p.length % 2 = 1 then some (p.getD (p.length / 2) 0)
  else some ((p.getD (p.length / 2 - 1) 0 + p.getD (p.length / 2) 0) / 2)

/-- `np.nanmedian(data, axis=0)`: one column median per column. -/
def nanmedian (m : Mat) : Stats :=
  (List.range (ncols m)).map (fun j => nanmedianCol (getCol m j))

/-- numpy's ascending order on float cells: NaN sorts after every number. -/
def cellLe : Cell → Cell → Bool
  | some a, some b => decide (a ≤ b)
  | some _, none => true
  | none, some _ => false
  | none, none => true

/-- Lexicographic order on rows, as used by `np.unique(..., axis=0)` to sort
the row set of a matrix. -/
def rowLexLe : List Cell → List Cell → Bool
  | [], _ => true
  | _ :: _, [] => false
  | a :: as, b :: bs => if a = b then rowLexLe as bs else cellLe a b

/-- Propositional form of `rowLexLe`, for use with `List.insertionSort`. -/
def rowLe (x y : List Cell) : Prop := rowLexLe x y = true

instance : DecidableRel rowLe := fun x y => instDecidableEqBool (rowLexLe x y) true

/-- `c.argmax()` scan over `(value, count)` pairs: keep the current best and
replace it only on a strictly larger count, so the first maximum wins. -/
def firstMax {α : Type} : (α × ℕ) → List (α × ℕ) → (α × ℕ)
  | best, [] => best
  | best, p :: t => if best.2 < p.2 then firstMax p t else firstMax best t

/-- The elementwise row comparison behind the uniqueness mask of
`np.unique(..., axis=0)`: the mask is built with `!=` on the structured row
view, where `NaN != NaN`, so two cells agree only when both are non-missing
and carry the same number.  A row containing a missing marker is therefore
never equal to any row, itself included. -/
def rowEqNp : List Cell → List Cell → Bool
  | [], [] => true
  | some a :: as, some b :: bs => decide (a = b) && rowEqNp as bs
  | _, _ => false

/-- The grouping pass of `np.unique(..., axis=0, return_counts=True)` over the
sorted row list: each row is compared with its successor using the `rowEqNp`
mask, a run of mask-equal rows becomes one entry (represented by its first
row) with the run length as count, and a row containing a missing marker
always starts its own run of length 1. -/
def rleNp : List (List Cell) → List (List Cell × ℕ)
  | [] => []
  | r :: rs =>
    match rleNp rs with
    | [] => [(r, 1)]
    | (q, n) :: t => if rowEqNp r q then (r, n + 1) :: t else (r, 1) :: (q, n) :: t

/-- `np.unique(data, axis=0, return_counts=True)`: sort the rows (the sort
comparator treats identical missing markers as equal, so equal rows end up
adjacent), then cut the sorted list into runs with the `NaN != NaN`
elementwise mask and count each run.  Rows without missing markers are
deduplicated with their multiplicity as count; rows with a missing marker are
kept once per occurrence, each with count 1. -/
def uniqueRowsCounts (m : Mat) : List (List Cell × ℕ) :=
  rleNp (List.insertionSort rowLe m)

/-- Whether a row has no missing marker. -/
def rowComplete (row : List Cell) : Bool := row.all (fun c => c.isSome)

/-- The count `np.unique(..., axis=0, return_counts=True)` effectively assigns
to an occurrence of a row of the matrix: its multiplicity if the row has no
missing marker, and 1 otherwise (`NaN != NaN` keeps such occurrences apart). -/
def npRowCount (m : Mat) (row : List Cell) : ℕ :=
  if rowComplete row then m.count row else 1

/-- `Mode.fit` for axis 0: `u, c = np.unique(data, axis=0, return_counts=True);
return u[c.argmax()]`.  On a matrix with no rows, `c.argmax()` is an argmax of
an empty sequence and raises `ValueError`. -/
def modeFit (m : Mat) : Except PyErr Stats :=
  match uniqueRowsCounts m with
  | [] => .error .valueError
  | h :: t => .ok (firstMax h t).1

/-- The strategies offered by both factories: `Mean`, `Median`, `Mode`. -/
inductive StrategyKind : Type
  | mean
  | median
  | mode
deriving DecidableEq

/-- Strategy `fit`: for axis 0 the per-column statistic (for `Mode`, the most
frequent row); for any other axis the source prints a not-implemented message
and falls through, returning Python `None` (here `Option.none`). -/
def stratFit (k : StrategyKind) (axis : ℤ) (data : Mat) : Except PyErr (Option Stats) :=
  if axis = 0 then
    match k with
    | .mean => .ok (some (nanmean data))
    | .median => .ok (some (nanmedian data))
    | .mode => (modeFit data).map some
  else .ok none

/-- One cell of `np.nan_to_num(d, nan=fitted_data[i])` applied down a row:
entry `j` keeps a numeric value and replaces NaN with `stats[j]` (the fill
itself may be NaN, leaving the entry missing). -/
def replaceRowAux (stats : Stats) : ℕ → List Cell → List Cell
  | _, [] => []
  | j, c :: cs =>
      (match c with
       | none => stats.getD j none
       | some v => some v) :: replaceRowAux stats (j + 1) cs

/-- Replace the missing entries of one row using the statistic of each column. -/
def replaceRow (stats : Stats) (row : List Cell) : List Cell :=
  replaceRowAux stats 0 row

/-- The axis-0 `transform` body: for each column `i`,
`data[:, i] = np.nan_to_num(data[:, i], nan=fitted_data[i])`, written
row-wise (cell `(r, j)` becomes `stats[j]` exactly when it was NaN). -/
def transformMatrix (stats : Stats) (m : Mat) : Mat :=
  m.map (replaceRow stats)

/-- Strategy `transform`: for axis 0 it loops `i in range(data.shape[1])`
filling NaNs of column `i` with `fitted_data[i]` in place and returns the
array.  Passing Python `None` for `data` raises `AttributeError` at
`data.shape`; `None` for `fitted_data` raises `TypeError` at the first
subscript (so only when the loop runs at least once); a fitted vector shorter
than the column count raises `IndexError`.  For any other axis the source
returns Python `None`. -/
def stratTransform (axis : ℤ) (data : Option Mat) (fitted : Option Stats) :
    Except PyErr (Option Mat) :=
  if axis = 0 then
    match data with
    | none => .error .attributeError
    | some m =>
      if ncols m = 0 then .ok (some m)
      else
        match fitted with
        | none => .error .typeError
        | some stats =>
          if ncols m ≤ stats.length then .ok (some (transformMatrix stats m))
          else .error .indexError
  else .ok none

/-- The `Imputer` object: its strategy and axis, plus the two fields that
start out as Python `None`: `_data` and `_fitted_data`. -/
structure Imputer : Type where
  strategy : StrategyKind
  axis : ℤ
  data : Option Mat
  fitted : Option Stats
deriving DecidableEq

/-- `astype(float)` copies the array; every cell here is already numeric or
the NaN marker, so the copy has the same cell values. -/
def astypeFloat (m : Mat) : Mat := m.map (fun r => r.map (fun c => c))

/-- A freshly constructed imputer: `self._data = None; self._fitted_data = None`. -/
def Imputer.init (k : StrategyKind) (axis : ℤ) : Imputer :=
  ⟨k, axis, none, none⟩

/-- `Imputer.fit`: `self._data = data.astype(float)`;
`self._fitted_data = self._strategy.fit(self._data)`; `return self`. -/
def Imputer.fit (imp : Imputer) (m : Mat) : Except PyErr Imputer :=
  let d := astypeFloat m
  match stratFit imp.strategy imp.axis d with
  | .error e => .error e
  | .ok f => .ok { imp with data := some d, fitted := f }

/-- `Imputer.transform`: `return self._strategy.transform(self._data,
self._fitted_data)`.  The strategy mutates `self._data` in place (the column
assignments), so a successful axis-0 call also updates the stored array. -/
def Imputer.transform (imp : Imputer) : Except PyErr (Option Mat × Imputer) :=
  match stratTransform imp.axis imp.data imp.fitted with
  | .error e => .error e
  | .ok none => .ok (none, imp)
  | .ok (some m) => .ok (some m, { imp with data := some m })

/-- No cell of the matrix is missing. -/
def Complete (m : Mat) : Prop := ∀ row ∈ m, ∀ c ∈ row, c ≠ none

/-- The non-missing entries of column `j`. -/
def presentCol (m : Mat) (j : ℕ) : List ℚ := presentVals (getCol m j)

/-- The spec's per-column mode: the most frequent non-missing value of the
column, ties broken toward the numerically smallest value. -/
def colModeSpec (col : List Cell) : Cell :=
  let p := presentVals col
  match ((List.insertionSort (fun a b : ℚ => a ≤ b) p).dedup).map
      (fun v => (v, p.count v)) with
  | [] => none
  | h :: t => some (firstMax h t).1

/-- The spec's standard median of a list of values: on the ascending sort `s`
of the `n` values, the average of `s[(n-1)/2]` and `s[n/2]` (the middle
element when `n` is odd, the average of the two middle elements when `n` is
even). -/
def medianSpec (l : List ℚ) : ℚ :=
  let s := List.insertionSort (fun a b : ℚ => a ≤ b) l
  (s.getD ((l.length - 1) / 2) 0 + s.getD (l.length / 2) 0) / 2

/-- The numeric part of the demonstration matrix in both `__main__` blocks:
ages and salaries, with one NaN in each column. -/
def demoMat : Mat :=
  [[some 44, some 72000],
   [some 27, some 48000],
   [some 30, some 54000],
   [some 38, some 61000],
   [some 40, none],
   [some 35, some 58000],
   [none, some 52000],
   [some 48, some 79000],
   [some 50, some 83000],
   [some 37, some 67000]]

/-- The statistics `np.nanmean(demo, axis=0)` produces: the means of the nine
present values of each column. -/
def demoMeanStats : Stats := [some (349 / 9), some (574000 / 9)]

/-- The demonstration matrix after mean imputation: both NaN cells filled with
the mean of their column. -/
def demoMeanOut : Mat :=
  [[some 44, some 72000],
   [some 27, some 48000],
   [some 30, some 54000],
   [some 38, some 61000],
   [some 40, some (574000 / 9)],
   [some 35, some 58000],
   [some (349 / 9), some 52000],
   [some 48, some 79000],
   [some 50, some 83000],
   [some 37, some 67000]]

/-- The statistics `np.nanmedian(demo, axis=0)` produces. -/
def demoMedianStats : Stats := [some 38, some 61000]

/-- The demonstration matrix after median imputation. -/
def demoMedianOut : Mat :=
  [[some 44, some 72000],
   [some 27, some 48000],
   [some 30, some 54000],
   [some 38, some 61000],
   [some 40, some 61000],
   [some 35, some 58000],
   [some 38, some 52000],
   [some 48, some 79000],
   [some 50, some 83000],
   [some 37, some 67000]]

/-- A small matrix with no missing cells and no repeated row, used to compare
`Mode.fit` with a per-column mode: column 1 holds `[2, 3, 3]`, whose mode is
`3`, while the most frequent (here: lexicographically first) row is `[1, 2]`. -/
def modeDemoMat : Mat :=
  [[some 1, some 2], [some 1, some 3], [some 4, some 3]]

/-! ## A store model for the aliasing claim

numpy arrays are mutable heap objects.  To state that the caller's array is
never written, arrays live in an explicit store (a list of matrices indexed by
address): `astype(float)` allocates a fresh address, and the in-place column
assignments of `transform` write back only to the imputer's own address. -/

/-- The heap of allocated arrays, indexed by position. -/
abbrev Store : Type := List Mat

/-- The imputer with its `_data` field as a store address instead of a value. -/
structure HImputer : Type where
  strategy : StrategyKind
  axis : ℤ
  dataAddr : Option ℕ
  fitted : Option Stats

/-- A freshly constructed imputer in the store model. -/
def HImputer.init (k : StrategyKind) (axis : ℤ) : HImputer :=
  ⟨k, axis, none, none⟩

/-- Store-level `Imputer.fit` on the array at address `a`: read it, allocate a
fresh address for the `astype(float)` copy, and fit the strategy on the copy.
The caller's array is only read. -/
def hfit (s : Store) (imp : HImputer) (a : ℕ) : Except PyErr (Store × HImputer) :=
  let d := astypeFloat (s.getD a [])
  match stratFit imp.strategy imp.axis d with
  | .error e => .error e
  | .ok f => .ok (s ++ [d], { imp with dataAddr := some s.length, fitted := f })

/-- Store-level `Imputer.transform`: read the internal array, and on a
successful axis-0 run write the transformed array back to the same address
(the in-place `data[:, i] = ...` assignments). -/
def htransform (s : Store) (imp : HImputer) :
    Except PyErr (Store × Option Mat) :=
  match imp.dataAddr with
  | none =>
      match stratTransform imp.axis none imp.fitted with
      | .error e => .error e
      | .ok o => .ok (s, o)
  | some da =>
      match stratTransform imp.axis (some (s.getD da [])) imp.fitted with
      | .error e => .error e
      | .ok none => .ok (s, none)
      | .ok (some m) => .ok (s.set da m, some m)

/-! ## Unfolding lemmas for the cell-level operations -/

theorem presentVals_nil : presentVals [] = [] := rfl

theorem presentVals_cons_some (a : ℚ) (l : List Cell) :
    presentVals (some a :: l) = a :: presentVals l := rfl

theorem presentVals_cons_none (l : List Cell) :
    presentVals (none :: l) = presentVals l := rfl

theorem replaceRowAux_nil (stats : Stats) (j : ℕ) : replaceRowAux stats j [] = [] := rfl

theorem replaceRowAux_cons_some (stats : Stats) (j : ℕ) (v : ℚ) (cs : List Cell) :
    replaceRowAux stats j (some v :: cs) = some v :: replaceRowAux stats (j + 1) cs := rfl

theorem replaceRowAux_cons_none (stats : Stats) (j : ℕ) (cs : List Cell) :
    replaceRowAux stats j (none :: cs) =
      stats.getD j none :: replaceRowAux stats (j + 1) cs := rfl

theorem astypeFloat_self (m : Mat) : astypeFloat m = m := by
  simp [astypeFloat]

/-! ## The row order used by np.unique -/

theorem cellLe_refl (a : Cell) : cellLe a a = true := by
  cases a <;> simp [cellLe]

theorem cellLe_trans : ∀ {a b c : Cell},
    cellLe a b = true → cellLe b c = true → cellLe a c = true
  | some a, some b, some c, h₁, h₂ => by
      simp only [cellLe, decide_eq_true_eq] at h₁ h₂ ⊢
      exact le_trans h₁ h₂
  | some _, some _, none, _, _ => rfl
  | some _, none, some _, _, h₂ => by simp [cellLe] at h₂
  | some _, none, none, _, _ => rfl
  | none, some _, _, h₁, _ => by simp [cellLe] at h₁
  | none, none, some _, _, h₂ => by simp [cellLe] at h₂
  | none, none, none, _, _ => rfl

theorem cellLe_total (a b : Cell) : cellLe a b = true ∨ cellLe b a = true := by
  cases a <;> cases b <;> simp [cellLe]
  exact le_total _ _

theorem cellLe_antisymm : ∀ {a b : Cell},
    cellLe a b = true → cellLe b a = true → a = b
  | some a, some b, h₁, h₂ => by
      simp only [cellLe, decide_eq_true_eq] at h₁ h₂
      exact congrArg some (le_antisymm h₁ h₂)
  | some _, none, _, h₂ => by simp [cellLe] at h₂
  | none, some _, h₁, _ => by simp [cellLe] at h₁
  | none, none, _, _ => rfl

theorem rowLexLe_refl : ∀ x : List Cell, rowLexLe x x = true
  | [] => rfl
  | a :: as => by simp [rowLexLe, rowLexLe_refl as]

theorem rowLexLe_trans : ∀ {x y z : List Cell},
    rowLexLe x y = true → rowLexLe y z = true → rowLexLe x z = true
  | [], _, _, _, _ => rfl
  | _ :: _, [], _, h₁, _ => by simp [rowLexLe] at h₁
  | _ :: _, _ :: _, [], _, h₂ => by simp [rowLexLe] at h₂
  | a :: as, b :: bs, c :: cs, h₁, h₂ => by
      by_cases hab : a = b
      · subst hab
        simp only [rowLexLe, if_pos rfl] at h₁
        by_cases hac : a = c
        · subst hac
          simp only [rowLexLe, if_pos rfl] at h₂ ⊢
          exact rowLexLe_trans h₁ h₂
        · simp only [rowLexLe, if_neg hac] at h₂ ⊢
          exact h₂
      · simp only [rowLexLe, if_neg hab] at h₁
        by_cases hbc : b = c
        · subst hbc
          simp only [rowLexLe, if_neg hab]
          exact h₁
        · simp only [rowLexLe, if_neg hbc] at h₂
          have hac : a ≠ c := by
            intro he
            subst he
            exact hab (cellLe_antisymm h₁ h₂)
          simp only [rowLexLe, if_neg hac]
          exact cellLe_trans h₁ h₂

theorem rowLexLe_total : ∀ x y : List Cell, rowLexLe x y = true ∨ rowLexLe y x = true
  | [], _ => Or.inl rfl
  | _ :: _, [] => Or.inr rfl
  | a :: as, b :: bs => by
      by_cases hab : a = b
      · subst hab
        simpa [rowLexLe] using rowLexLe_total as bs
      · have hba : b ≠ a := fun h => hab h.symm
        simpa [rowLexLe, if_neg hab, if_neg hba] using cellLe_total a b

theorem rowLexLe_antisymm : ∀ {x y : List Cell},
    rowLexLe x y = true → rowLexLe y x = true → x = y
  | [], [], _, _ => rfl
  | [], _ :: _, _, h₂ => by simp [rowLexLe] at h₂
  | _ :: _, [], h₁, _ => by simp [rowLexLe] at h₁
  | a :: as, b :: bs, h₁, h₂ => by
      by_cases hab : a = b
      · subst hab
        simp only [rowLexLe, if_pos rfl] at h₁ h₂
        rw [rowLexLe_antisymm h₁ h₂]
      · have hba : b ≠ a := fun h => hab h.symm
        simp only [rowLexLe, if_neg hab] at h₁
        simp only [rowLexLe, if_neg hba] at h₂
        exact absurd (cellLe_antisymm h₁ h₂) hab

instance : IsRefl (List Cell) rowLe := ⟨rowLexLe_refl⟩

instance : IsTrans (List Cell) rowLe := ⟨fun _ _ _ => rowLexLe_trans⟩

instance : IsTotal (List Cell) rowLe := ⟨rowLexLe_total⟩

/-! ## np.argmax over counts: the first maximum wins -/

/-- On a list of `(value, count)` pairs whose values are sorted, `firstMax`
returns a listed pair of maximal count, and its value is `le`-below the value
of every other pair of the same count (the "first of the maxima" tie-break of
`argmax` on a sorted uniqueness output). -/
theorem firstMax_spec {α : Type} (le : α → α → Bool)
    (href : ∀ a, le a a = true)
    (htr : ∀ {a b c : α}, le a b = true → le b c = true → le a c = true)
    (t : List (α × ℕ)) (h : α × ℕ)
    (hpw : List.Pairwise (fun p q : α × ℕ => le p.1 q.1 = true) (h :: t)) :
    firstMax h t ∈ h :: t ∧
      (∀ q ∈ h :: t, q.2 ≤ (firstMax h t).2) ∧
      (∀ q ∈ h :: t, q.2 = (firstMax h t).2 → le (firstMax h t).1 q.1 = true) := by
  induction t generalizing h with
  | nil =>
      refine ⟨List.mem_cons_self _ _, ?_, ?_⟩
      · intro q hq
        rw [List.mem_singleton] at hq
        subst hq
        exact le_refl _
      · intro q hq _
        rw [List.mem_singleton] at hq
        subst hq
        exact href _
  | cons p t ih =>
      rcases List.pairwise_cons.mp hpw with ⟨hrel, hpw'⟩
      by_cases hlt : h.2 < p.2
      · have hres : firstMax h (p :: t) = firstMax p t := by
          simp [firstMax, hlt]
        obtain ⟨hmem, hcnt, htie⟩ := ih p hpw'
        rw [hres]
        refine ⟨List.mem_cons_of_mem _ hmem, ?_, ?_⟩
        · intro q hq
          rcases List.mem_cons.mp hq with hq | hq
          · subst hq
            exact le_of_lt (lt_of_lt_of_le hlt (hcnt p (List.mem_cons_self _ _)))
          · exact hcnt q hq
        · intro q hq he
          rcases List.mem_cons.mp hq with hq | hq
          · subst hq
            exact absurd he (Nat.ne_of_lt (lt_of_lt_of_le hlt (hcnt p (List.mem_cons_self _ _))))
          · exact htie q hq he
      · have hres : firstMax h (p :: t) = firstMax h t := by
          simp [firstMax, hlt]
        have hple : p.2 ≤ h.2 := Nat.le_of_not_lt hlt
        have hpw'' : List.Pairwise (fun p q : α × ℕ => le p.1 q.1 = true) (h :: t) :=
          List.pairwise_cons.mpr
            ⟨fun q hq => hrel q (List.mem_cons_of_mem _ hq), (List.pairwise_cons.mp hpw').2⟩
        obtain ⟨hmem, hcnt, htie⟩ := ih h hpw''
        rw [hres]
        constructor
        · rcases List.mem_cons.mp hmem with hm | hm
          · rw [hm]
            exact List.mem_cons_self _ _
          · exact List.mem_cons_of_mem _ (List.mem_cons_of_mem _ hm)
        constructor
        · intro q hq
          rcases List.mem_cons.mp hq with hq | hq
          · subst hq
            exact hcnt q (List.mem_cons_self _ _)
          · rcases List.mem_cons.mp hq with hq' | hq'
            · subst hq'
              exact le_trans hple (hcnt h (List.mem_cons_self _ _))
            · exact hcnt q (List.mem_cons_of_mem _ hq')
        · intro q hq he
          rcases List.mem_cons.mp hq with hq | hq
          · subst hq
            exact htie q (List.mem_cons_self _ _) he
          · rcases List.mem_cons.mp hq with hq' | hq'
            · subst hq'
              have hh2 : h.2 ≤ (firstMax h t).2 := hcnt h (List.mem_cons_self _ _)
              have hq2 : (firstMax h t).2 ≤ h.2 := he ▸ hple
              have hhe : h.2 = (firstMax h t).2 := le_antisymm hh2 hq2
              have h₁ : le (firstMax h t).1 h.1 = true :=
                htie h (List.mem_cons_self _ _) hhe
              exact htr h₁ (hrel q (List.mem_cons_self _ _))
            · exact htie q (List.mem_cons_of_mem _ hq') he

/-! ## The uniqueness pass of np.unique(axis=0) -/

theorem rowEqNp_iff : ∀ p q : List Cell,
    rowEqNp p q = true ↔ (p = q ∧ rowComplete p = true)
  | [], [] => by simp [rowEqNp, rowComplete]
  | [], _ :: _ => by simp [rowEqNp]
  | _ :: _, [] => by
      constructor
      · intro h
        simp [rowEqNp] at h
      · rintro ⟨h, -⟩
        exact absurd h (by simp)
  | some a :: as, some b :: bs => by
      rw [show rowEqNp (some a :: as) (some b :: bs) =
        (decide (a = b) && rowEqNp as bs) from rfl]
      rw [Bool.and_eq_true, decide_eq_true_eq, rowEqNp_iff as bs]
      simp [rowComplete]
      tauto
  | some _ :: _, none :: _ => by
      constructor
      · intro h
        simp [rowEqNp] at h
      · rintro ⟨h, -⟩
        simp at h
  | none :: _, _ :: _ => by
      constructor
      · intro h
        simp [rowEqNp] at h
      · rintro ⟨-, h⟩
        simp [rowComplete] at h

theorem rleNp_eq_nil : ∀ {l : List (List Cell)}, rleNp l = [] → l = []
  | [], _ => rfl
  | r :: rs, h => by
      rw [rleNp] at h
      cases hr : rleNp rs with
      | nil => rw [hr] at h; exact absurd h (by simp)
      | cons p t =>
          rw [hr] at h
          obtain ⟨q, n⟩ := p
          by_cases he : rowEqNp r q = true <;> simp [he] at h

theorem rleNp_cons (r : List Cell) (rs : List (List Cell)) :
    ∃ n t, rleNp (r :: rs) = (r, n) :: t := by
  rw [rleNp]
  cases hr : rleNp rs with
  | nil => exact ⟨1, [], rfl⟩
  | cons p t =>
      obtain ⟨q, n⟩ := p
      by_cases he : rowEqNp r q = true
      · exact ⟨n + 1, t, by simp [he]⟩
      · exact ⟨1, (q, n) :: t, by simp [he]⟩

theorem rleNp_reps_sublist : ∀ l : List (List Cell),
    ((rleNp l).map Prod.fst).Sublist l
  | [] => List.Sublist.refl []
  | r :: rs => by
      have ih := rleNp_reps_sublist rs
      rw [rleNp]
      cases hr : rleNp rs with
      | nil =>
          simp only [List.map_cons, List.map_nil]
          exact List.cons_sublist_cons.mpr (List.nil_sublist rs)
      | cons p t =>
          obtain ⟨q, n⟩ := p
          rw [hr] at ih
          by_cases he : rowEqNp r q = true
          · simp only [he, if_pos, List.map_cons]
            have ht : (t.map Prod.fst).Sublist rs :=
              List.Sublist.trans (by simp) ih
            exact List.cons_sublist_cons.mpr ht
          · simp only [he, Bool.false_eq_true, if_neg, not_false_iff, List.map_cons]
            refine List.cons_sublist_cons.mpr ?_
            simpa using ih

theorem rleNp_count_le : ∀ (l : List (List Cell)) (pr : List Cell × ℕ),
    pr ∈ rleNp l →
      (rowComplete pr.1 = false → pr.2 = 1) ∧
      (rowComplete pr.1 = true → pr.2 ≤ l.count pr.1)
  | [], pr, h => absurd h (by simp [rleNp])
  | r :: rs, pr, h => by
      have hcount_mono : ∀ (row : List Cell), rs.count row ≤ (r :: rs).count row := by
        intro row
        rw [List.count_cons]
        exact Nat.le_add_right _ _
      rw [rleNp] at h
      cases hr : rleNp rs with
      | nil =>
          rw [hr] at h
          simp only [List.mem_singleton] at h
          subst h
          refine ⟨fun _ => rfl, fun _ => ?_⟩
          rw [List.count_cons_self]
          omega
      | cons p t =>
          obtain ⟨q, n⟩ := p
          rw [hr] at h
          by_cases he : rowEqNp r q = true
          · obtain ⟨hrq, hcomp⟩ := (rowEqNp_iff r q).mp he
            simp only [he, if_pos, List.mem_cons] at h
            rcases h with h | h
            · subst h
              constructor
              · intro hfalse
                have hfalse' : rowComplete r = false := hfalse
                rw [hcomp] at hfalse'
                exact absurd hfalse' (by simp)
              · intro _
                show n + 1 ≤ (r :: rs).count r
                have hq_mem : (q, n) ∈ rleNp rs := by
                  rw [hr]
                  exact List.mem_cons_self _ _
                have hn : n ≤ rs.count q :=
                  (rleNp_count_le rs (q, n) hq_mem).2 (hrq ▸ hcomp)
                rw [List.count_cons_self, hrq]
                omega
            · have hmem : pr ∈ rleNp rs := by
                rw [hr]
                exact List.mem_cons_of_mem _ h
              obtain ⟨h1, h2⟩ := rleNp_count_le rs pr hmem
              exact ⟨h1, fun hc => le_trans (h2 hc) (hcount_mono pr.1)⟩
          · simp only [he, Bool.false_eq_true, if_neg, not_false_iff, List.mem_cons] at h
            rcases h with h | h
            · subst h
              refine ⟨fun _ => rfl, fun _ => ?_⟩
              show 1 ≤ (r :: rs).count r
              rw [List.count_cons_self]
              omega
            · have hmem : pr ∈ rleNp rs := by
                rw [hr]
                exact List.mem_cons.mpr h
              obtain ⟨h1, h2⟩ := rleNp_count_le rs pr hmem
              exact ⟨h1, fun hc => le_trans (h2 hc) (hcount_mono pr.1)⟩

theorem rleNp_head_count : ∀ (x : List Cell) (xs : List (List Cell)),
    List.Pairwise rowLe (x :: xs) → ∀ (n : ℕ) (t : List (List Cell × ℕ)),
      rleNp (x :: xs) = (x, n) :: t →
      n = (if rowComplete x then (x :: xs).count x else 1)
  | x, [], _, n, t, heq => by
      rw [rleNp, rleNp] at heq
      simp only [List.cons.injEq, Prod.mk.injEq] at heq
      rw [← heq.1.2]
      split
      · rw [List.count_cons_self]
        simp
      · rfl
  | x, y :: ys, hpw, n, t, heq => by
      rcases List.pairwise_cons.mp hpw with ⟨hrel, hpw'⟩
      obtain ⟨n', t', h'⟩ := rleNp_cons y ys
      have hn' := rleNp_head_count y ys hpw' n' t' h'
      rw [rleNp, h'] at heq
      by_cases he : rowEqNp x y = true
      · obtain ⟨hxy, hcomp⟩ := (rowEqNp_iff x y).mp he
        simp only [he, if_pos, List.cons.injEq, Prod.mk.injEq] at heq
        rw [← heq.1.2, hcomp, if_pos rfl, List.count_cons_self]
        rw [hxy] at hcomp ⊢
        rw [if_pos hcomp] at hn'
        omega
      · simp only [he, Bool.false_eq_true, if_neg, not_false_iff,
          List.cons.injEq, Prod.mk.injEq] at heq
        rw [← heq.1.2]
        split
        · rename_i hcomp
          have hx_not_mem : x ∉ y :: ys := by
            intro hmem
            have hxy : x = y := by
              rcases List.mem_cons.mp hmem with h | h
              · exact h
              · have h1 : rowLexLe x y = true := hrel y (List.mem_cons_self _ _)
                have h2 : rowLexLe y x = true :=
                  (List.pairwise_cons.mp hpw').1 x h
                exact rowLexLe_antisymm h1 h2
            exact absurd ((rowEqNp_iff x y).mpr ⟨hxy, hcomp⟩) he
          rw [List.count_cons_self, List.count_eq_zero.mpr hx_not_mem]
        · rfl

theorem rleNp_mem_count : ∀ l : List (List Cell), List.Pairwise rowLe l →
    ∀ row ∈ l, (row, if rowComplete row then l.count row else 1) ∈ rleNp l
  | [], _, row, hrow => absurd hrow (by simp)
  | r :: rs, hpw, row, hrow => by
      rcases List.pairwise_cons.mp hpw with ⟨hrel, hpw'⟩
      by_cases hrr : row = r
      · subst hrr
        obtain ⟨n, t, heq⟩ := rleNp_cons row rs
        have hn := rleNp_head_count row rs hpw n t heq
        rw [heq, ← hn]
        exact List.mem_cons_self _ _
      · have hrow' : row ∈ rs := by
          rcases List.mem_cons.mp hrow with h | h
          · exact absurd h hrr
          · exact h
        have ih := rleNp_mem_count rs hpw' row hrow'
        have hcnt : (if rowComplete row then (r :: rs).count row else 1) =
            (if rowComplete row then rs.count row else 1) := by
          split
          · rw [List.count_cons_of_ne hrr]
          · rfl
        rw [hcnt, rleNp]
        cases hr : rleNp rs with
        | nil =>
            rw [rleNp_eq_nil hr] at hrow'
            exact absurd hrow' (by simp)
        | cons p t =>
            obtain ⟨q, n⟩ := p
            rw [hr] at ih
            by_cases he : rowEqNp r q = true
            · obtain ⟨hrq, -⟩ := (rowEqNp_iff r q).mp he
              simp only [he, if_pos]
              rcases List.mem_cons.mp ih with h | h
              · have : row = q := by
                  rw [Prod.mk.injEq] at h
                  exact h.1
                rw [← hrq] at this
                exact absurd this hrr
              · exact List.mem_cons_of_mem _ h
            · simp only [he, Bool.false_eq_true, if_neg, not_false_iff]
              exact List.mem_cons_of_mem _ ih

/-- What `Mode.fit` returns on a nonempty matrix: a row of the matrix of
maximal `np.unique` count — a row without missing markers counts by its
multiplicity, while each occurrence of a row with a missing marker counts 1,
since `NaN != NaN` keeps such rows apart in the uniqueness mask — and
lexicographically least among the candidates of that maximal count. -/
theorem modeFit_spec (m : Mat) (hne : m ≠ []) :
    ∃ r, modeFit m = .ok r ∧ r ∈ m ∧
      (∀ row ∈ m, npRowCount m row ≤ npRowCount m r) ∧
      (∀ row ∈ m, npRowCount m row = npRowCount m r → rowLexLe r row = true) := by
  classical
  set sorted := List.insertionSort rowLe m with hsorted_def
  have hperm : sorted.Perm m := List.perm_insertionSort rowLe m
  have hsort : List.Pairwise rowLe sorted := List.sorted_insertionSort rowLe m
  have hcnt_eq : ∀ row : List Cell, sorted.count row = m.count row := by
    intro row
    simp only [List.count_eq_countP]
    exact hperm.countP_eq _
  have hnp_eq : ∀ row : List Cell,
      (if rowComplete row then sorted.count row else 1) = npRowCount m row := by
    intro row
    rw [npRowCount]
    split
    · exact hcnt_eq row
    · rfl
  have hmem_iff : ∀ row : List Cell, row ∈ sorted ↔ row ∈ m :=
    fun row => hperm.mem_iff
  have hsorted_ne : sorted ≠ [] := by
    intro h
    have hmnil : m.Perm [] := by
      rw [← h]
      exact hperm.symm
    exact hne hmnil.eq_nil
  obtain ⟨x, xs, hx⟩ := List.exists_cons_of_ne_nil hsorted_ne
  obtain ⟨n₀, t₀, hu⟩ := rleNp_cons x xs
  have hpairs : uniqueRowsCounts m = (x, n₀) :: t₀ := by
    rw [uniqueRowsCounts, ← hsorted_def, hx, hu]
  have hsub : (((x, n₀) :: t₀).map Prod.fst).Sublist sorted := by
    rw [← hu, ← hx]
    exact rleNp_reps_sublist sorted
  have hpw_pairs : List.Pairwise
      (fun p q : List Cell × ℕ => rowLexLe p.1 q.1 = true) ((x, n₀) :: t₀) := by
    have := List.Pairwise.sublist hsub hsort
    rwa [List.pairwise_map] at this
  obtain ⟨hmem, hcnt, htie⟩ := firstMax_spec rowLexLe rowLexLe_refl
    (fun h₁ h₂ => rowLexLe_trans h₁ h₂) t₀ (x, n₀) hpw_pairs
  set p := firstMax (x, n₀) t₀ with hp_def
  have hp_mem_rle : p ∈ rleNp sorted := by
    rw [hx, hu]
    exact hmem
  have hp1_sorted : p.1 ∈ sorted := by
    have : p.1 ∈ ((x, n₀) :: t₀).map Prod.fst := List.mem_map.mpr ⟨p, hmem, rfl⟩
    exact hsub.mem this
  have hp1_m : p.1 ∈ m := (hmem_iff p.1).mp hp1_sorted
  have hru : rleNp sorted = (x, n₀) :: t₀ := by
    rw [hx]
    exact hu
  have hp2 : p.2 = npRowCount m p.1 := by
    have hle : npRowCount m p.1 ≤ p.2 := by
      have hq : (p.1, if rowComplete p.1 then sorted.count p.1 else 1) ∈
          rleNp sorted := rleNp_mem_count sorted hsort p.1 hp1_sorted
      rw [hru] at hq
      have hc : (if rowComplete p.1 then sorted.count p.1 else 1) ≤ p.2 := hcnt _ hq
      rwa [hnp_eq p.1] at hc
    have hge : p.2 ≤ npRowCount m p.1 := by
      obtain ⟨h1, h2⟩ := rleNp_count_le sorted p hp_mem_rle
      rw [npRowCount]
      cases hcomp : rowComplete p.1 with
      | false =>
          rw [if_neg (by simp)]
          exact le_of_eq (h1 hcomp)
      | true =>
          rw [if_pos rfl, ← hcnt_eq p.1]
          exact h2 hcomp
    exact le_antisymm hge hle
  refine ⟨p.1, ?_, hp1_m, ?_, ?_⟩
  · simp only [modeFit, hpairs]
  · intro row hrow
    have hq : (row, if rowComplete row then sorted.count row else 1) ∈
        rleNp sorted := rleNp_mem_count sorted hsort row ((hmem_iff row).mpr hrow)
    rw [hru] at hq
    have hc : (if rowComplete row then sorted.count row else 1) ≤ p.2 := hcnt _ hq
    rw [hnp_eq row] at hc
    rw [← hp2]
    exact hc
  · intro row hrow he
    have hq : (row, if rowComplete row then sorted.count row else 1) ∈
        rleNp sorted := rleNp_mem_count sorted hsort row ((hmem_iff row).mpr hrow)
    rw [hru] at hq
    have harg : ((row, if rowComplete row then sorted.count row else 1) :
        List Cell × ℕ).2 = p.2 := by
      show (if rowComplete row then sorted.count row else 1) = p.2
      rw [hnp_eq row, he, hp2]
    exact htie _ hq harg

/-! ## Indexing utilities -/

theorem getD_map_range {β : Type} (f : ℕ → β) (n j : ℕ) (hj : j < n) (d : β) :
    ((List.range n).map f).getD j d = f j := by
  rw [List.getD_eq_getElem _ _ (by simpa using hj)]
  simp

theorem getD_map_of_lt {α β : Type} (f : α → β) (l : List α) (i : ℕ) (hi : i < l.length)
    (d : β) (d₀ : α) : (l.map f).getD i d = f (l.getD i d₀) := by
  rw [List.getD_eq_getElem _ _ (by simpa using hi), List.getD_eq_getElem _ _ hi]
  simp

/-! ## Structure of the transform step -/

theorem length_replaceRowAux (stats : Stats) : ∀ (j : ℕ) (row : List Cell),
    (replaceRowAux stats j row).length = row.length
  | _, [] => rfl
  | j, c :: cs => by
      simp [replaceRowAux, length_replaceRowAux stats (j + 1) cs]

theorem length_replaceRow (stats : Stats) (row : List Cell) :
    (replaceRow stats row).length = row.length :=
  length_replaceRowAux stats 0 row

theorem getD_replaceRowAux_some (stats : Stats) :
    ∀ (j k : ℕ) (row : List Cell) (v : ℚ), row.getD k none = some v →
      (replaceRowAux stats j row).getD k none = some v
  | _, k, [], v, h => by simp at h
  | j, 0, c :: cs, v, h => by
      simp only [List.getD_cons_zero] at h
      subst h
      simp [replaceRowAux]
  | j, k + 1, c :: cs, v, h => by
      simp only [List.getD_cons_succ] at h
      have := getD_replaceRowAux_some stats (j + 1) k cs v h
      cases c <;> simp only [replaceRowAux, List.getD_cons_succ] <;> exact this

theorem getD_replaceRowAux_none (stats : Stats) :
    ∀ (j k : ℕ) (row : List Cell), k < row.length → row.getD k none = none →
      (replaceRowAux stats j row).getD k none = stats.getD (j + k) none
  | _, _, [], h, _ => absurd h (by simp)
  | j, 0, c :: cs, _, h => by
      simp only [List.getD_cons_zero] at h
      subst h
      simp [replaceRowAux]
  | j, k + 1, c :: cs, hk, h => by
      simp only [List.getD_cons_succ] at h
      have hk' : k < cs.length := by simpa using hk
      have := getD_replaceRowAux_none stats (j + 1) k cs hk' h
      have harith : j + 1 + k = j + (k + 1) := by omega
      cases c <;> simp only [replaceRowAux, List.getD_cons_succ] <;>
        rw [this, harith]

theorem replaceRowAux_of_forall_some (stats : Stats) :
    ∀ (j : ℕ) (row : List Cell), (∀ c ∈ row, c ≠ none) →
      replaceRowAux stats j row = row
  | _, [], _ => rfl
  | j, c :: cs, h => by
      have htail := replaceRowAux_of_forall_some stats (j + 1) cs
        (fun c hc => h c (List.mem_cons_of_mem _ hc))
      cases c with
      | none => exact absurd rfl (h none (List.mem_cons_self _ _))
      | some v => simp [replaceRowAux, htail]

theorem replaceRowAux_idem (stats : Stats) :
    ∀ (j : ℕ) (row : List Cell),
      replaceRowAux stats j (replaceRowAux stats j row) = replaceRowAux stats j row
  | _, [] => rfl
  | j, c :: cs => by
      have htail := replaceRowAux_idem stats (j + 1) cs
      cases c with
      | some v => simp [replaceRowAux, htail]
      | none =>
          cases hs : stats.getD j none with
          | some s => simp only [replaceRowAux, hs, htail]
          | none => simp only [replaceRowAux, hs, htail]

theorem length_transformMatrix (stats : Stats) (m : Mat) :
    (transformMatrix stats m).length = m.length := by
  simp [transformMatrix]

theorem ncols_transformMatrix (stats : Stats) (m : Mat) :
    ncols (transformMatrix stats m) = ncols m := by
  cases m with
  | nil => rfl
  | cons r rs => simp [transformMatrix, ncols, replaceRow, length_replaceRowAux]

theorem transformMatrix_of_complete (stats : Stats) (m : Mat) (hc : Complete m) :
    transformMatrix stats m = m := by
  induction m with
  | nil => rfl
  | cons r rs ih =>
      have hr : replaceRow stats r = r :=
        replaceRowAux_of_forall_some stats 0 r (hc r (List.mem_cons_self _ _))
      have hrs : Complete rs := fun row hrow => hc row (List.mem_cons_of_mem _ hrow)
      simp [transformMatrix, hr]
      simpa [transformMatrix] using ih hrs

theorem transformMatrix_idem (stats : Stats) (m : Mat) :
    transformMatrix stats (transformMatrix stats m) = transformMatrix stats m := by
  induction m with
  | nil => rfl
  | cons r rs ih =>
      simp only [transformMatrix, List.map_cons, List.map_map] at ih ⊢
      have hh : replaceRow stats (replaceRow stats r) = replaceRow stats r :=
        replaceRowAux_idem stats 0 r
      rw [hh, ih]

theorem transformMatrix_of_ncols_zero (stats : Stats) (m : Mat)
    (hr : Rect m) (h0 : ncols m = 0) : transformMatrix stats m = m := by
  apply transformMatrix_of_complete
  intro row hrow c hc
  have : row.length = 0 := (hr row hrow).trans h0
  rw [List.length_eq_zero] at this
  subst this
  simp at hc

theorem rect_transformMatrix (stats : Stats) (m : Mat) (hr : Rect m) :
    Rect (transformMatrix stats m) := by
  intro row hrow
  rw [ncols_transformMatrix]
  obtain ⟨r, hr_m, hmap⟩ := List.mem_map.mp hrow
  rw [← hmap, length_replaceRow]
  exact hr r hr_m

/-! ## The fitted statistic vectors -/

theorem length_nanmean (m : Mat) : (nanmean m).length = ncols m := by
  simp [nanmean]

theorem length_nanmedian (m : Mat) : (nanmedian m).length = ncols m := by
  simp [nanmedian]

theorem getD_nanmean (m : Mat) (j : ℕ) (hj : j < ncols m) :
    (nanmean m).getD j none = nanmeanCol (getCol m j) :=
  getD_map_range _ _ _ hj _

theorem getD_nanmedian (m : Mat) (j : ℕ) (hj : j < ncols m) :
    (nanmedian m).getD j none = nanmedianCol (getCol m j) :=
  getD_map_range _ _ _ hj _

theorem nanmeanCol_of_present (col : List Cell) (hp : presentVals col ≠ []) :
    nanmeanCol col = some ((presentVals col).sum / (presentVals col).length) := by
  simp [nanmeanCol, hp]

theorem presentVals_eq_nil_of_all_none (col : List Cell) (h : ∀ c ∈ col, c = none) :
    presentVals col = [] := by
  rw [presentVals, List.filterMap_eq_nil_iff]
  intro a ha
  simp [h a ha]

theorem nanmeanCol_of_all_none (col : List Cell) (h : ∀ c ∈ col, c = none) :
    nanmeanCol col = none := by
  simp [nanmeanCol, presentVals_eq_nil_of_all_none col h]

theorem nanmedianCol_of_all_none (col : List Cell) (h : ∀ c ∈ col, c = none) :
    nanmedianCol col = none := by
  simp [nanmedianCol, presentVals_eq_nil_of_all_none col h]

/-- The source's `np.nanmedian` branch structure (middle element when the
count is odd, average of the two middles when even) agrees with the spec's
uniform standard-median formula. -/
theorem nanmedianCol_eq_medianSpec (col : List Cell) (hp : presentVals col ≠ []) :
    nanmedianCol col = some (medianSpec (presentVals col)) := by
  have hlen : (List.insertionSort (fun a b : ℚ => a ≤ b) (presentVals col)).length =
      (presentVals col).length := List.length_insertionSort _ _
  have hpos : 0 < (presentVals col).length := List.length_pos.mpr hp
  rw [nanmedianCol, medianSpec]
  simp only [hlen]
  by_cases hodd : (presentVals col).length % 2 = 1
  · have h1 : ((presentVals col).length - 1) / 2 = (presentVals col).length / 2 := by omega
    have h2 : (presentVals col).length ≠ 0 := by omega
    rw [if_neg h2, if_pos hodd, h1]
    congr 1
    field_simp
  · have h1 : ((presentVals col).length - 1) / 2 = (presentVals col).length / 2 - 1 := by
      omega
    have h2 : (presentVals col).length ≠ 0 := by omega
    rw [if_neg h2, if_neg hodd, h1]

/-! ## Plumbing lemmas for the Imputer object -/

theorem fit_mean_eq (m : Mat) :
    (Imputer.init .mean 0).fit m = .ok ⟨.mean, 0, some m, some (nanmean m)⟩ := by
  simp [Imputer.fit, Imputer.init, stratFit, astypeFloat_self]

theorem fit_median_eq (m : Mat) :
    (Imputer.init .median 0).fit m = .ok ⟨.median, 0, some m, some (nanmedian m)⟩ := by
  simp [Imputer.fit, Imputer.init, stratFit, astypeFloat_self]

theorem fit_mode_eq (m : Mat) (r : Stats) (h : modeFit m = .ok r) :
    (Imputer.init .mode 0).fit m = .ok ⟨.mode, 0, some m, some r⟩ := by
  simp [Imputer.fit, Imputer.init, stratFit, astypeFloat_self, h, Except.map]

theorem stratTransform_ok (m : Mat) (stats : Stats) (hr : Rect m)
    (hl : ncols m ≤ stats.length) :
    stratTransform 0 (some m) (some stats) = .ok (some (transformMatrix stats m)) := by
  by_cases h0 : ncols m = 0
  · simp [stratTransform, h0, transformMatrix_of_ncols_zero stats m hr h0]
  · simp [stratTransform, h0, hl]

theorem imputer_transform_ok (k : StrategyKind) (m : Mat) (stats : Stats)
    (hr : Rect m) (hl : ncols m ≤ stats.length) :
    Imputer.transform ⟨k, 0, some m, some stats⟩ =
      .ok (some (transformMatrix stats m),
           ⟨k, 0, some (transformMatrix stats m), some stats⟩) := by
  simp [Imputer.transform, stratTransform_ok m stats hr hl]

/-! ## Concrete evaluation on the demonstration matrix -/

theorem rect_demo : Rect demoMat := by
  intro r hr
  simp only [demoMat, List.mem_cons, List.not_mem_nil, or_false] at hr
  rcases hr with rfl | rfl | rfl | rfl | rfl | rfl | rfl | rfl | rfl | rfl <;> rfl

theorem ncols_demo : ncols demoMat = 2 := rfl

theorem demo_mean_col0 : nanmeanCol (getCol demoMat 0) = some (349 / 9) := by
  norm_num [nanmeanCol, getCol, demoMat, presentVals_cons_some, presentVals_cons_none,
    presentVals_nil]
  all_goals simp

theorem demo_mean_col1 : nanmeanCol (getCol demoMat 1) = some (574000 / 9) := by
  norm_num [nanmeanCol, getCol, demoMat, presentVals_cons_some, presentVals_cons_none,
    presentVals_nil]
  all_goals simp

theorem demo_median_col0 : nanmedianCol (getCol demoMat 0) = some 38 := by
  norm_num [nanmedianCol, getCol, demoMat, presentVals_cons_some, presentVals_cons_none,
    presentVals_nil, List.insertionSort, List.orderedInsert]

theorem demo_median_col1 : nanmedianCol (getCol demoMat 1) = some 61000 := by
  norm_num [nanmedianCol, getCol, demoMat, presentVals_cons_some, presentVals_cons_none,
    presentVals_nil, List.insertionSort, List.orderedInsert]

theorem nanmean_demo : nanmean demoMat = demoMeanStats := by
  show [nanmeanCol (getCol demoMat 0), nanmeanCol (getCol demoMat 1)] = _
  rw [demo_mean_col0, demo_mean_col1]
  rfl

theorem nanmedian_demo : nanmedian demoMat = demoMedianStats := by
  show [nanmedianCol (getCol demoMat 0), nanmedianCol (getCol demoMat 1)] = _
  rw [demo_median_col0, demo_median_col1]
  rfl

theorem transformMatrix_mean_demo :
    transformMatrix demoMeanStats demoMat = demoMeanOut := by
  simp [transformMatrix, replaceRow, demoMat, demoMeanStats, demoMeanOut,
    replaceRowAux_cons_some, replaceRowAux_cons_none, replaceRowAux_nil]

theorem transformMatrix_median_demo :
    transformMatrix demoMedianStats demoMat = demoMedianOut := by
  simp [transformMatrix, replaceRow, demoMat, demoMedianStats, demoMedianOut,
    replaceRowAux_cons_some, replaceRowAux_cons_none, replaceRowAux_nil]

theorem fit_mean_demo : (Imputer.init .mean 0).fit demoMat =
    .ok ⟨.mean, 0, some demoMat, some demoMeanStats⟩ := by
  rw [fit_mean_eq, nanmean_demo]

theorem fit_median_demo : (Imputer.init .median 0).fit demoMat =
    .ok ⟨.median, 0, some demoMat, some demoMedianStats⟩ := by
  rw [fit_median_eq, nanmedian_demo]

theorem transform_mean_demo :
    Imputer.transform ⟨.mean, 0, some demoMat, some demoMeanStats⟩ =
      .ok (some demoMeanOut, ⟨.mean, 0, some demoMeanOut, some demoMeanStats⟩) := by
  rw [imputer_transform_ok .mean demoMat demoMeanStats rect_demo (by rw [ncols_demo]; rfl),
    transformMatrix_mean_demo]

theorem transform_median_demo :
    Imputer.transform ⟨.median, 0, some demoMat, some demoMedianStats⟩ =
      .ok (some demoMedianOut, ⟨.median, 0, some demoMedianOut, some demoMedianStats⟩) := by
  rw [imputer_transform_ok .median demoMat demoMedianStats rect_demo (by rw [ncols_demo]; rfl),
    transformMatrix_median_demo]

/-- The `NaN != NaN` behavior of the uniqueness pass on a concrete input: on
`[[NaN], [NaN], [1.0]]` the two NaN rows are not collapsed, every row counts 1,
and `Mode.fit` returns the lexicographically first row `[1.0]` (NaN sorts
last), exactly as the program does. -/
theorem modeFit_nan_rows_demo :
    modeFit [[none], [none], [some 1]] = .ok [some 1] ∧
    uniqueRowsCounts [[none], [none], [some 1]] =
      [([some 1], 1), ([none], 1), ([none], 1)] := ⟨rfl, rfl⟩

/-! ## Helper lemmas about entirely missing columns and fitted states -/

theorem getCol_all_none (m : Mat) (j : ℕ)
    (hmiss : ∀ row ∈ m, row.getD j none = none) :
    ∀ c ∈ getCol m j, c = none := by
  intro c hc
  obtain ⟨row, hrow, rfl⟩ := List.mem_map.mp hc
  exact hmiss row hrow

theorem transform_keeps_missing_col (m : Mat) (stats : Stats) (j : ℕ)
    (hrect : Rect m) (hj : j < ncols m)
    (hmiss : ∀ row ∈ m, row.getD j none = none)
    (hstat : stats.getD j none = none) :
    ∀ row ∈ transformMatrix stats m, row.getD j none = none := by
  intro row hrow
  obtain ⟨r, hr, rfl⟩ := List.mem_map.mp hrow
  have hjr : j < r.length := by
    rw [hrect r hr]
    exact hj
  have h := getD_replaceRowAux_none stats 0 j r hjr (hmiss r hr)
  show (replaceRowAux stats 0 r).getD j none = none
  rw [h, Nat.zero_add]
  exact hstat

theorem modeFit_ne_nil (m : Mat) (r : Stats) (h : modeFit m = .ok r) : m ≠ [] := by
  rintro rfl
  simp [modeFit, uniqueRowsCounts, rleNp] at h

/-- What a successful `Imputer.fit` leaves in the object: for axis 0 a fitted
statistic vector at least as long as the column count (given a rectangular
input), for any other axis the Python `None` produced by the strategy. -/
theorem fit_ok_cases (k : StrategyKind) (axis : ℤ) (m : Mat) (imp₁ : Imputer)
    (hf : (Imputer.init k axis).fit m = .ok imp₁) :
    (axis = 0 ∧ ∃ stats, imp₁ = ⟨k, 0, some m, some stats⟩ ∧
      (Rect m → ncols m ≤ stats.length)) ∨
    (axis ≠ 0 ∧ imp₁ = ⟨k, axis, some m, none⟩) := by
  by_cases haxis : axis = 0
  · subst haxis
    left
    refine ⟨rfl, ?_⟩
    cases k with
    | mean =>
        rw [fit_mean_eq] at hf
        exact ⟨nanmean m, (Except.ok.inj hf).symm,
          fun _ => le_of_eq (length_nanmean m).symm⟩
    | median =>
        rw [fit_median_eq] at hf
        exact ⟨nanmedian m, (Except.ok.inj hf).symm,
          fun _ => le_of_eq (length_nanmedian m).symm⟩
    | mode =>
        cases hmf : modeFit m with
        | error e =>
            simp [Imputer.fit, Imputer.init, stratFit, astypeFloat_self, hmf,
              Except.map] at hf
        | ok r =>
            rw [fit_mode_eq m r hmf] at hf
            refine ⟨r, (Except.ok.inj hf).symm, fun hrect => ?_⟩
            obtain ⟨r', hok', hmem', -, -⟩ := modeFit_spec m (modeFit_ne_nil m r hmf)
            have heq : r' = r := Except.ok.inj (hok'.symm.trans hmf)
            rw [heq] at hmem'
            exact le_of_eq (hrect r hmem').symm
  · right
    refine ⟨haxis, ?_⟩
    simp only [Imputer.fit, Imputer.init, stratFit, if_neg haxis, astypeFloat_self] at hf
    exact (Except.ok.inj hf).symm

/-! ## The claims -/

/-- C1, counterexample: on the matrix `[[1,2],[1,3],[4,3]]` the mode strategy
with axis 0 fits the statistic vector `[1, 2]` (the lexicographically first of
the distinct rows, each occurring once), so the statistic for column 1 is `2`;
but the most frequent value among the non-missing entries `[2, 3, 3]` of
column 1 is `3`.  The claim that each column gets its own mode is false. -/
theorem C1_counterexample :
    (Imputer.init .mode 0).fit modeDemoMat =
      .ok ⟨.mode, 0, some modeDemoMat, some [some 1, some 2]⟩ ∧
    colModeSpec (getCol modeDemoMat 1) = some 3 ∧
    ([some 1, some 2] : Stats).getD 1 none = some 2 ∧
    (some 2 : Cell) ≠ some 3 := by
  refine ⟨rfl, rfl, rfl, ?_⟩
  intro h
  have := Option.some.inj h
  norm_num at this

/-- C1 (amended): for every nonempty rectangular matrix, the mode strategy
with axis 0 fits successfully, and the fitted statistic vector is a row of the
matrix with one entry per column — not the per-column modes.  The returned row
maximises the count assigned by the uniqueness pass, where a row without
missing markers counts by its multiplicity and every occurrence of a row with
a missing marker counts 1 (`NaN != NaN` in the uniqueness mask keeps them
apart); among the candidates of maximal count the lexicographically smallest
wins (missing markers sorting last). -/
theorem C1_theorem (m : Mat) (hne : m ≠ []) (hrect : Rect m) :
    ∃ r, (Imputer.init .mode 0).fit m = .ok ⟨.mode, 0, some m, some r⟩ ∧
      r ∈ m ∧ r.length = ncols m ∧
      (∀ row ∈ m, npRowCount m row ≤ npRowCount m r) ∧
      (∀ row ∈ m, npRowCount m row = npRowCount m r → rowLexLe r row = true) := by
  obtain ⟨r, hok, hmem, hcnt, htie⟩ := modeFit_spec m hne
  exact ⟨r, fit_mode_eq m r hok, hmem, hrect r hmem, hcnt, htie⟩

/-- C1, witness: the amended claim evaluated on the `[[1,2],[1,3],[4,3]]`
matrix. -/
theorem C1_witness :
    modeDemoMat ≠ [] ∧ Rect modeDemoMat ∧
    ∃ r, (Imputer.init .mode 0).fit modeDemoMat = .ok ⟨.mode, 0, some modeDemoMat, some r⟩ ∧
      r ∈ modeDemoMat ∧ r.length = ncols modeDemoMat ∧
      (∀ row ∈ modeDemoMat, npRowCount modeDemoMat row ≤ npRowCount modeDemoMat r) ∧
      (∀ row ∈ modeDemoMat, npRowCount modeDemoMat row = npRowCount modeDemoMat r →
        rowLexLe r row = true) :=
  have hne : modeDemoMat ≠ [] := by simp [modeDemoMat]
  have hrect : Rect modeDemoMat := by
    intro r hr
    simp only [modeDemoMat, List.mem_cons, List.not_mem_nil, or_false] at hr
    rcases hr with rfl | rfl | rfl <;> rfl
  ⟨hne, hrect, C1_theorem modeDemoMat hne hrect⟩

/-- C2, counterexample: on the matrix `[[NaN],[NaN]]`, whose single column is
entirely missing, the mean strategy fit raises no error at all: it returns
normally, storing the NaN statistic vector `[none]`.  No `EmptyColumnError`
exists in the code. -/
theorem C2_counterexample :
    (Imputer.init .mean 0).fit [[none], [none]] =
      .ok ⟨.mean, 0, some [[none], [none]], some [none]⟩ := rfl

/-- C2 (amended): for every nonempty rectangular matrix with an entirely
missing column and every strategy, `fit` completes without raising; the fitted
statistic for that column is the missing marker (NaN), and the subsequent
`transform` leaves every cell of that column missing. -/
theorem C2_theorem (m : Mat) (j : ℕ) (hrect : Rect m) (hne : m ≠ [])
    (hj : j < ncols m) (hmiss : ∀ row ∈ m, row.getD j none = none)
    (k : StrategyKind) :
    ∃ stats,
      (Imputer.init k 0).fit m = .ok ⟨k, 0, some m, some stats⟩ ∧
      stats.getD j none = none ∧
      Imputer.transform ⟨k, 0, some m, some stats⟩ =
        .ok (some (transformMatrix stats m),
             ⟨k, 0, some (transformMatrix stats m), some stats⟩) ∧
      ∀ row ∈ transformMatrix stats m, row.getD j none = none := by
  have hcol := getCol_all_none m j hmiss
  cases k with
  | mean =>
      have hstat : (nanmean m).getD j none = none := by
        rw [getD_nanmean m j hj]
        exact nanmeanCol_of_all_none _ hcol
      exact ⟨nanmean m, fit_mean_eq m, hstat,
        imputer_transform_ok .mean m (nanmean m) hrect (le_of_eq (length_nanmean m).symm),
        transform_keeps_missing_col m (nanmean m) j hrect hj hmiss hstat⟩
  | median =>
      have hstat : (nanmedian m).getD j none = none := by
        rw [getD_nanmedian m j hj]
        exact nanmedianCol_of_all_none _ hcol
      exact ⟨nanmedian m, fit_median_eq m, hstat,
        imputer_transform_ok .median m (nanmedian m) hrect
          (le_of_eq (length_nanmedian m).symm),
        transform_keeps_missing_col m (nanmedian m) j hrect hj hmiss hstat⟩
  | mode =>
      obtain ⟨r, hok, hmem, -, -⟩ := modeFit_spec m hne
      have hstat : r.getD j none = none := hmiss r hmem
      exact ⟨r, fit_mode_eq m r hok, hstat,
        imputer_transform_ok .mode m r hrect (le_of_eq (hrect r hmem).symm),
        transform_keeps_missing_col m r j hrect hj hmiss hstat⟩

/-- C2, witness: the amended claim on the all-missing one-column matrix
`[[NaN],[NaN]]` with the mean strategy. -/
theorem C2_witness :
    Rect [[none], [none]] ∧ ([[none], [none]] : Mat) ≠ [] ∧
    0 < ncols [[none], [none]] ∧
    (∀ row ∈ ([[none], [none]] : Mat), row.getD 0 none = none) ∧
    ∃ stats,
      (Imputer.init .mean 0).fit [[none], [none]] =
        .ok ⟨.mean, 0, some [[none], [none]], some stats⟩ ∧
      stats.getD 0 none = none ∧
      Imputer.transform ⟨.mean, 0, some [[none], [none]], some stats⟩ =
        .ok (some (transformMatrix stats [[none], [none]]),
             ⟨.mean, 0, some (transformMatrix stats [[none], [none]]), some stats⟩) ∧
      ∀ row ∈ transformMatrix stats [[none], [none]], row.getD 0 none = none :=
  have hrect : Rect [[none], [none]] := by
    intro r hr
    simp only [List.mem_cons, List.not_mem_nil, or_false] at hr
    rcases hr with rfl | rfl <;> rfl
  have hne : ([[none], [none]] : Mat) ≠ [] := by simp
  have hj : 0 < ncols [[none], [none]] := by decide
  have hmiss : ∀ row ∈ ([[none], [none]] : Mat), row.getD 0 none = none := by
    intro row hrow
    simp only [List.mem_cons, List.not_mem_nil, or_false] at hrow
    rcases hrow with rfl | rfl <;> rfl
  ⟨hrect, hne, hj, hmiss, C2_theorem [[none], [none]] 0 hrect hne hj hmiss .mean⟩

/-- C3: for every rectangular matrix and every statistic vector whose length
equals the column count, the axis-0 transform succeeds and returns a matrix of
the same shape in which each cell of column `j` is the statistic `stats[j]`
when it was missing and is unchanged otherwise. -/
theorem C3_theorem (stats : Stats) (m : Mat) (hrect : Rect m)
    (hlen : stats.length = ncols m) :
    stratTransform 0 (some m) (some stats) = .ok (some (transformMatrix stats m)) ∧
    (transformMatrix stats m).length = m.length ∧
    (∀ row ∈ transformMatrix stats m, row.length = ncols m) ∧
    ∀ i j, i < m.length → j < ncols m →
      ((transformMatrix stats m).getD i []).getD j none =
        (match (m.getD i []).getD j none with
         | none => stats.getD j none
         | some v => some v) := by
  refine ⟨stratTransform_ok m stats hrect (le_of_eq hlen.symm),
    length_transformMatrix stats m, ?_, ?_⟩
  · intro row hrow
    have := rect_transformMatrix stats m hrect row hrow
    rwa [ncols_transformMatrix] at this
  · intro i j hi hj
    have hrow_mem : m.getD i [] ∈ m := by
      rw [List.getD_eq_getElem _ _ hi]
      exact List.getElem_mem hi
    have hjlen : j < (m.getD i []).length := by
      rw [hrect _ hrow_mem]
      exact hj
    have hmap : (transformMatrix stats m).getD i [] = replaceRow stats (m.getD i []) :=
      getD_map_of_lt _ m i hi _ _
    rw [hmap]
    cases hc : (m.getD i []).getD j none with
    | none =>
        have := getD_replaceRowAux_none stats 0 j (m.getD i []) hjlen hc
        rw [Nat.zero_add] at this
        exact this
    | some v => exact getD_replaceRowAux_some stats 0 j (m.getD i []) v hc

/-- C3, witness: the transform contract evaluated with the demonstration
matrix and its mean statistic vector. -/
theorem C3_witness :
    Rect demoMat ∧ demoMeanStats.length = ncols demoMat ∧
    (stratTransform 0 (some demoMat) (some demoMeanStats) =
      .ok (some (transformMatrix demoMeanStats demoMat)) ∧
    (transformMatrix demoMeanStats demoMat).length = demoMat.length ∧
    (∀ row ∈ transformMatrix demoMeanStats demoMat, row.length = ncols demoMat) ∧
    ∀ i j, i < demoMat.length → j < ncols demoMat →
      ((transformMatrix demoMeanStats demoMat).getD i []).getD j none =
        (match (demoMat.getD i []).getD j none with
         | none => demoMeanStats.getD j none
         | some v => some v)) :=
  ⟨rect_demo, rfl, C3_theorem demoMeanStats demoMat rect_demo rfl⟩

/-- C4: with the mean strategy and axis 0, `fit` stores one statistic per
column, and the statistic of every column with at least one non-missing value
is the arithmetic mean of its non-missing values (sum over count), wherever
the missing cells sit.  On the demonstration matrix the column
`[44, 27, 30, 38, 40, 35, NaN, 48, 50, 37]` is fitted to `349/9 = 38.777...`
and its missing cell (row 6) is replaced by that value in the transform
output. -/
theorem C4_theorem :
    (∀ (m : Mat) (j : ℕ), j < ncols m → presentCol m j ≠ [] →
      (Imputer.init .mean 0).fit m = .ok ⟨.mean, 0, some m, some (nanmean m)⟩ ∧
      (nanmean m).getD j none =
        some ((presentCol m j).sum / (presentCol m j).length)) ∧
    ((Imputer.init .mean 0).fit demoMat =
        .ok ⟨.mean, 0, some demoMat, some demoMeanStats⟩ ∧
      demoMeanStats.getD 0 none = some (349 / 9) ∧
      (demoMat.getD 6 []).getD 0 none = none ∧
      Imputer.transform ⟨.mean, 0, some demoMat, some demoMeanStats⟩ =
        .ok (some demoMeanOut, ⟨.mean, 0, some demoMeanOut, some demoMeanStats⟩) ∧
      (demoMeanOut.getD 6 []).getD 0 none = some (349 / 9)) := by
  constructor
  · intro m j hj hp
    refine ⟨fit_mean_eq m, ?_⟩
    rw [getD_nanmean m j hj]
    exact nanmeanCol_of_present _ hp
  · exact ⟨fit_mean_demo, rfl, rfl, transform_mean_demo, rfl⟩

/-- C4, witness: the universally quantified part evaluated at the
demonstration matrix and its first column. -/
theorem C4_witness :
    0 < ncols demoMat ∧ presentCol demoMat 0 ≠ [] ∧
    ((Imputer.init .mean 0).fit demoMat =
        .ok ⟨.mean, 0, some demoMat, some (nanmean demoMat)⟩ ∧
      (nanmean demoMat).getD 0 none =
        some ((presentCol demoMat 0).sum / (presentCol demoMat 0).length)) :=
  ⟨by decide, by decide, C4_theorem.1 demoMat 0 (by decide) (by decide)⟩

/-- C5, counterexample: with axis 1, `Mean.fit` raises nothing: it prints a
message and returns Python `None`, and the imputer records `None` as the
fitted data; `transform` likewise returns `None`.  No `UnsupportedAxisError`
exists in the code. -/
theorem C5_counterexample :
    stratFit .mean 1 [[some 1]] = .ok none ∧
    (Imputer.init .mean 1).fit [[some 1]] =
      .ok ⟨.mean, 1, some [[some 1]], none⟩ ∧
    stratTransform 1 (some [[some 1]]) none = .ok none := ⟨rfl, rfl, rfl⟩

/-- C5 (amended): for every strategy and every axis other than 0, `fit` and
`transform` are explicit no-result paths: both return Python `None` (after the
source prints a not-implemented message) and neither raises an error. -/
theorem C5_theorem (k : StrategyKind) (axis : ℤ) (h : axis ≠ 0) (m : Mat)
    (d : Option Mat) (f : Option Stats) :
    stratFit k axis m = .ok none ∧ stratTransform axis d f = .ok none := by
  constructor
  · simp [stratFit, h]
  · simp [stratTransform, h]

/-- C5, witness: the amended claim at axis 1 with the mean strategy. -/
theorem C5_witness :
    (1 : ℤ) ≠ 0 ∧
    (stratFit .mean 1 [[some 1]] = .ok none ∧
      stratTransform 1 (some [[some 1]]) (some [some 1]) = .ok none) :=
  ⟨by decide, C5_theorem .mean 1 (by decide) [[some 1]] (some [[some 1]]) (some [some 1])⟩

/-- C6, counterexample: a freshly constructed imputer with axis 1 is in the
unfitted state, yet calling `transform` is not an error at all: the strategy
returns Python `None` before ever touching the missing data.  And no
`NotFittedError` exists in the code. -/
theorem C6_counterexample :
    (Imputer.init .mean 1).transform = .ok (none, Imputer.init .mean 1) := rfl

/-- C6 (amended): calling `transform` on an unfitted imputer never returns a
matrix: with axis 0 it fails with an `AttributeError` (reading `.shape` of the
`None` stored in `_data`), not with a `NotFittedError`; with any other axis it
returns Python `None`. -/
theorem C6_theorem (k : StrategyKind) (axis : ℤ) :
    (axis = 0 ∧ (Imputer.init k axis).transform = .error .attributeError) ∨
    (axis ≠ 0 ∧ (Imputer.init k axis).transform = .ok (none, Imputer.init k axis)) := by
  by_cases h : axis = 0
  · subst h
    exact Or.inl ⟨rfl, rfl⟩
  · refine Or.inr ⟨h, ?_⟩
    simp [Imputer.transform, Imputer.init, stratTransform, h]

/-- C7, counterexample: the matrix with no rows contains no missing cells,
yet with the mode strategy `fit` raises a `ValueError` (`argmax` of the empty
uniqueness output), so `fit` followed by `transform` does not return the
matrix unchanged there. -/
theorem C7_counterexample :
    Complete ([] : Mat) ∧ (Imputer.init .mode 0).fit [] = .error .valueError := by
  refine ⟨?_, rfl⟩
  intro row hrow
  simp at hrow

/-- C7 (amended): for every rectangular matrix with at least one row and no
missing cells and for every strategy, `fit` succeeds and the following
`transform` returns the matrix unchanged. -/
theorem C7_theorem (m : Mat) (hne : m ≠ []) (hrect : Rect m) (hc : Complete m)
    (k : StrategyKind) :
    ∃ stats, (Imputer.init k 0).fit m = .ok ⟨k, 0, some m, some stats⟩ ∧
      Imputer.transform ⟨k, 0, some m, some stats⟩ =
        .ok (some m, ⟨k, 0, some m, some stats⟩) := by
  cases k with
  | mean =>
      refine ⟨nanmean m, fit_mean_eq m, ?_⟩
      have h := imputer_transform_ok .mean m (nanmean m) hrect
        (le_of_eq (length_nanmean m).symm)
      rwa [transformMatrix_of_complete _ _ hc] at h
  | median =>
      refine ⟨nanmedian m, fit_median_eq m, ?_⟩
      have h := imputer_transform_ok .median m (nanmedian m) hrect
        (le_of_eq (length_nanmedian m).symm)
      rwa [transformMatrix_of_complete _ _ hc] at h
  | mode =>
      obtain ⟨r, hok, hmem, -, -⟩ := modeFit_spec m hne
      refine ⟨r, fit_mode_eq m r hok, ?_⟩
      have h := imputer_transform_ok .mode m r hrect (le_of_eq (hrect r hmem).symm)
      rwa [transformMatrix_of_complete _ _ hc] at h

/-- C7, witness: the identity on complete data evaluated with the mode
strategy on `[[1,2],[1,3],[4,3]]`. -/
theorem C7_witness :
    modeDemoMat ≠ [] ∧ Rect modeDemoMat ∧ Complete modeDemoMat ∧
    ∃ stats, (Imputer.init .mode 0).fit modeDemoMat =
        .ok ⟨.mode, 0, some modeDemoMat, some stats⟩ ∧
      Imputer.transform ⟨.mode, 0, some modeDemoMat, some stats⟩ =
        .ok (some modeDemoMat, ⟨.mode, 0, some modeDemoMat, some stats⟩) :=
  have hne : modeDemoMat ≠ [] := by simp [modeDemoMat]
  have hrect : Rect modeDemoMat := by
    intro r hr
    simp only [modeDemoMat, List.mem_cons, List.not_mem_nil, or_false] at hr
    rcases hr with rfl | rfl | rfl <;> rfl
  have hc : Complete modeDemoMat := by
    intro row hrow
    simp only [modeDemoMat, List.mem_cons, List.not_mem_nil, or_false] at hrow
    rcases hrow with rfl | rfl | rfl <;> intro c hc <;>
      simp only [List.mem_cons, List.not_mem_nil, or_false] at hc <;>
      rcases hc with rfl | rfl <;> simp
  ⟨hne, hrect, hc, C7_theorem modeDemoMat hne hrect hc .mode⟩

/-- C8: with the median strategy and axis 0, the fitted statistic of every
column with at least one non-missing value is the standard median of its
non-missing values (middle element of the ascending sort for an odd count,
average of the two middle elements for an even count).  On the demonstration
matrix, the non-missing values of column 1 sort to
`[48000, 52000, 54000, 58000, 61000, 67000, 72000, 79000, 83000]` (9 values,
one cell missing), the fitted median is `61000`, and that value fills the
missing cell (row 4) in the transform output. -/
theorem C8_theorem :
    (∀ (m : Mat) (j : ℕ), j < ncols m → presentCol m j ≠ [] →
      (Imputer.init .median 0).fit m = .ok ⟨.median, 0, some m, some (nanmedian m)⟩ ∧
      (nanmedian m).getD j none = some (medianSpec (presentCol m j))) ∧
    (List.insertionSort (fun a b : ℚ => a ≤ b) (presentCol demoMat 1) =
        [48000, 52000, 54000, 58000, 61000, 67000, 72000, 79000, 83000] ∧
      (Imputer.init .median 0).fit demoMat =
        .ok ⟨.median, 0, some demoMat, some demoMedianStats⟩ ∧
      demoMedianStats.getD 1 none = some 61000 ∧
      (demoMat.getD 4 []).getD 1 none = none ∧
      Imputer.transform ⟨.median, 0, some demoMat, some demoMedianStats⟩ =
        .ok (some demoMedianOut, ⟨.median, 0, some demoMedianOut, some demoMedianStats⟩) ∧
      (demoMedianOut.getD 4 []).getD 1 none = some 61000) := by
  constructor
  · intro m j hj hp
    refine ⟨fit_median_eq m, ?_⟩
    rw [getD_nanmedian m j hj]
    exact nanmedianCol_eq_medianSpec _ hp
  · exact ⟨rfl, fit_median_demo, rfl, rfl, transform_median_demo, rfl⟩

/-- C8, witness: the universally quantified part evaluated at the
demonstration matrix and its salary column. -/
theorem C8_witness :
    1 < ncols demoMat ∧ presentCol demoMat 1 ≠ [] ∧
    ((Imputer.init .median 0).fit demoMat =
        .ok ⟨.median, 0, some demoMat, some (nanmedian demoMat)⟩ ∧
      (nanmedian demoMat).getD 1 none = some (medianSpec (presentCol demoMat 1))) :=
  ⟨by decide, by decide, C8_theorem.1 demoMat 1 (by decide) (by decide)⟩

/-- C9: for every rectangular matrix and every strategy, after a successful
`fit`, two consecutive `transform` calls without re-fitting return the same
output (the second call re-fills an already filled matrix with the same
statistics, which changes nothing). -/
theorem C9_theorem (k : StrategyKind) (axis : ℤ) (m : Mat) (hrect : Rect m)
    (imp₁ : Imputer) (hf : (Imputer.init k axis).fit m = .ok imp₁) :
    ∃ out s₂ s₃, imp₁.transform = .ok (out, s₂) ∧ s₂.transform = .ok (out, s₃) := by
  rcases fit_ok_cases k axis m imp₁ hf with ⟨haxis, stats, him, hlen⟩ | ⟨haxis, him⟩
  · subst him
    have hl := hlen hrect
    refine ⟨some (transformMatrix stats m),
      ⟨k, 0, some (transformMatrix stats m), some stats⟩,
      ⟨k, 0, some (transformMatrix stats m), some stats⟩,
      imputer_transform_ok k m stats hrect hl, ?_⟩
    have h2 := imputer_transform_ok k (transformMatrix stats m) stats
      (rect_transformMatrix stats m hrect)
      (by rw [ncols_transformMatrix]; exact hl)
    rw [transformMatrix_idem] at h2
    exact h2
  · subst him
    refine ⟨none, ⟨k, axis, some m, none⟩, ⟨k, axis, some m, none⟩, ?_, ?_⟩ <;>
      simp [Imputer.transform, stratTransform, haxis]

/-- C9, witness: the idempotence evaluated with the mean strategy on the
demonstration matrix. -/
theorem C9_witness :
    Rect demoMat ∧
    (Imputer.init .mean 0).fit demoMat =
      .ok ⟨.mean, 0, some demoMat, some demoMeanStats⟩ ∧
    ∃ out s₂ s₃,
      Imputer.transform ⟨.mean, 0, some demoMat, some demoMeanStats⟩ = .ok (out, s₂) ∧
      s₂.transform = .ok (out, s₃) :=
  ⟨rect_demo, fit_mean_demo,
    C9_theorem .mean 0 demoMat rect_demo ⟨.mean, 0, some demoMat, some demoMeanStats⟩
      fit_mean_demo⟩

theorem getD_set_ne {α : Type} (l : List α) (i j : ℕ) (h : i ≠ j) (v d : α) :
    (l.set i v).getD j d = l.getD j d := by
  simp [List.getD_eq_getElem?_getD, List.getElem?_set_ne h]

/-- C10: in the store model, `fit` only reads the caller's array: it allocates
a fresh address (the `astype(float)` copy) for `_data`, so the caller's entry
is unchanged after `fit`, and every subsequent `transform` writes only to that
fresh internal address, never to the caller's. -/
theorem C10_theorem (s : Store) (k : StrategyKind) (axis : ℤ) (a : ℕ)
    (s₁ : Store) (imp₁ : HImputer) (ha : a < s.length)
    (hf : hfit s (HImputer.init k axis) a = .ok (s₁, imp₁)) :
    s₁.getD a [] = s.getD a [] ∧
    imp₁.dataAddr = some s.length ∧
    ∀ s' s₂ o, htransform s' imp₁ = .ok (s₂, o) →
      ∀ b, b ≠ s.length → s₂.getD b [] = s'.getD b [] := by
  cases hsf : stratFit k axis (astypeFloat (s.getD a [])) with
  | error e =>
      simp only [hfit, HImputer.init, hsf] at hf
      exact Except.noConfusion hf
  | ok f =>
      simp only [hfit, HImputer.init, hsf, Except.ok.injEq, Prod.mk.injEq] at hf
      obtain ⟨hs₁, himp⟩ := hf
      refine ⟨?_, ?_, ?_⟩
      · rw [← hs₁]
        exact List.getD_append s [astypeFloat (s.getD a [])] [] a ha
      · rw [← himp]
      · intro s' s₂ o htr b hb
        rw [← himp] at htr
        cases hst : stratTransform axis (some (s'.getD s.length [])) f with
        | error e =>
            simp only [htransform, hst] at htr
            exact Except.noConfusion htr
        | ok o' =>
            cases o' with
            | none =>
                simp only [htransform, hst, Except.ok.injEq, Prod.mk.injEq] at htr
                rw [← htr.1]
            | some mm =>
                simp only [htransform, hst, Except.ok.injEq, Prod.mk.injEq] at htr
                rw [← htr.1]
                exact getD_set_ne s' s.length b (Ne.symm hb) mm []

/-- C10, witness: the frame property evaluated on a one-array store with the
mode strategy. -/
theorem C10_witness :
    (0 : ℕ) < ([[[some 1, none]]] : Store).length ∧
    hfit [[[some 1, none]]] (HImputer.init .mode 0) 0 =
      .ok ([[[some 1, none]], [[some 1, none]]],
           ⟨.mode, 0, some 1, some [some 1, none]⟩) ∧
    (([[[some 1, none]], [[some 1, none]]] : Store).getD 0 [] =
        ([[[some 1, none]]] : Store).getD 0 [] ∧
      (⟨.mode, 0, some 1, some [some 1, none]⟩ : HImputer).dataAddr =
        some ([[[some 1, none]]] : Store).length ∧
      ∀ s' s₂ o,
        htransform s' ⟨.mode, 0, some 1, some [some 1, none]⟩ = .ok (s₂, o) →
        ∀ b, b ≠ ([[[some 1, none]]] : Store).length →
          s₂.getD b [] = s'.getD b []) :=
  ⟨by decide, rfl,
    C10_theorem [[[some 1, none]]] .mode 0 0 [[[some 1, none]], [[some 1, none]]]
      ⟨.mode, 0, some 1, some [some 1, none]⟩ (by decide) rfl⟩

end Impute
